import Mathlib

/-!
# Verification of the azure_preview_modules reconciliation templates

Shallow embedding of the five Ansible library modules of this repository
(`azure_rm_mariadbfirewallrule`, `azure_rm_devtestlabsuser`,
`azure_rm_devtestlabsenvironment`, `azure_rm_rediscache`), covering the
structural desired-vs-actual comparator `default_compare` and the
`exec_module` reconciliation drivers.

Python values relevant to the comparator are embedded as the inductive
`Value` (None, int, str, list, dict with string keys).  Operations that can
raise a Python exception return `Option` / flagged outcomes, with `none`
standing for a raised exception.
-/

/-- Python values handled by the comparator: `None`, `int`, `str`,
`list`, and `dict` with string keys.  A dict literal is represented as its
association list in insertion order (Python dicts preserve insertion order
and have unique keys). -/
inductive Value where
  | vnone : Value
  | vint (i : Int) : Value
  | vstr (s : String) : Value
  | vlist (l : List Value) : Value
  | vdict (d : List (String × Value)) : Value

open Value

/-- A Python dict with string keys, as an association list. -/
abbrev Dict := List (String × Value)

/-- `d.get(k)` on a Python dict: the value of the first pair with key `k`. -/
def lookupD (d : Dict) (k : String) : Option Value :=
  match d.find? (fun p => p.1 == k) with
  | some p => some p.2
  | none => none

mutual

/-- Python `==` on embedded values.  Numbers, strings and None compare by
value, lists elementwise, dicts pointwise over the association list (dict
literals are kept in a fixed key order, so pointwise comparison agrees
with Python key-set equality for the values arising here), and values of
different kinds are unequal. -/
def pyEq : Value → Value → Bool
  | vnone, vnone => true
  | vint a, vint b => a == b
  | vstr a, vstr b => a == b
  | vlist a, vlist b => pyEqL a b
  | vdict a, vdict b => pyEqD a b
  | _, _ => false

/-- Elementwise Python `==` on lists. -/
def pyEqL : List Value → List Value → Bool
  | [], [] => true
  | a :: as', b :: bs => pyEq a b && pyEqL as' bs
  | _, _ => false

/-- Pointwise Python `==` on dict association lists. -/
def pyEqD : Dict → Dict → Bool
  | [], [] => true
  | (ka, va) :: as', (kb, vb) :: bs => ka == kb && pyEq va vb && pyEqD as' bs
  | _, _ => false

end

mutual

/-- Python `<` on embedded values.  Defined for int/int, str/str and
list/list (lexicographic); every other combination raises `TypeError`,
modelled as `none`. -/
def pyLt : Value → Value → Option Bool
  | vint a, vint b => some (decide (a < b))
  | vstr a, vstr b => some (decide (a < b))
  | vlist a, vlist b => pyLtL a b
  | _, _ => none

/-- Lexicographic Python `<` on lists: skip equal prefixes, then compare
the first differing elements; a proper prefix is smaller. -/
def pyLtL : List Value → List Value → Option Bool
  | [], [] => some false
  | [], _ :: _ => some true
  | _ :: _, [] => some false
  | a :: as', b :: bs => if pyEq a b then pyLtL as' bs else pyLt a b

end

/-- Both directions of Python `<` are defined (the pair is orderable). -/
def comp2 (a b : Value) : Bool := (pyLt a b).isSome && (pyLt b a).isSome

/-- `p` holds for every unordered pair of elements of the list. -/
def pairwiseB (p : α → α → Bool) : List α → Bool
  | [] => true
  | a :: l => l.all (p a) && pairwiseB p l

/-- Strict comparison as a Bool: `pyLt a b` is defined and true. -/
def ltB (a b : Value) : Bool := pyLt a b == some true

/-- Insert `a` into `l`, walking past every `b` with `lt b a`; this places
`a` before all elements it ties with, which is what a stable sort does for
the element that originally came first. -/
def sInsert (lt : α → α → Bool) (a : α) : List α → List α
  | [] => [a]
  | b :: l => if lt b a then b :: sInsert lt a l else a :: b :: l

/-- Stable insertion sort by a strict comparison.  On inputs whose
elements are pairwise orderable this computes the unique stable order,
i.e. the output of CPython `sorted`. -/
def sSort (lt : α → α → Bool) : List α → List α
  | [] => []
  | a :: l => sInsert lt a (sSort lt l)

/-- Python substring containment for `s in t` on strings, over char lists:
does `needle` start `hay`? -/
def startsWithC : List Char → List Char → Bool
  | _, [] => true
  | [], _ :: _ => false
  | a :: as', b :: bs => a == b && startsWithC as' bs

/-- Does `needle` occur somewhere in `hay`? -/
def hasSubC (hay needle : List Char) : Bool :=
  startsWithC hay needle ||
    match hay with
    | [] => false
    | _ :: t => hasSubC t needle

/-- Python `s in x` for a string `s`: dict key membership, list membership
by `==`, substring test on strings; `in` on int/None raises `TypeError`
(`none`). -/
def pyContains (s : String) (x : Value) : Option Bool :=
  match x with
  | vdict d => some (lookupD d s).isSome
  | vlist l => some (l.any (fun v => pyEq v (vstr s)))
  | vstr t => some (hasSubC t.toList s.toList)
  | _ => none

/-- The sort key function `lambda x: x.get(key, None)` of
`default_compare`: defined only on dicts (`AttributeError` otherwise,
`none`); a Python-`None` key or a missing key yields `None` (`vnone`). -/
def getKey (k : Option String) (x : Value) : Option Value :=
  match x with
  | vdict d =>
    match k with
    | none => some vnone
    | some s => some ((lookupD d s).getD vnone)
  | _ => none

/-- Total version of the sort key function, used under the guard that
`getKey` succeeds on every element. -/
def kfun (k : Option String) (x : Value) : Value := (getKey k x).getD vnone

mutual

/-- The sort-key discovery of `default_compare` (lines 285-290 of
azure_rm_mariadbfirewallrule.py), given the first elements `n0` of the
desired and `o0` of the actual sequence:

  key = None
  if 'id' in old[0] and 'id' in new[0]: key = 'id'
  elif 'name' in old[0] and 'name' in new[0]: key = 'name'

Result `none` models an exception from a membership test (the `and` and
the `elif` short-circuit exactly as in Python); `some k` is the chosen
key, itself `none` for Python `None`. -/
def chooseKey (n0 o0 : Value) : Option (Option String) :=
  match pyContains "id" o0 with
  | none => none
  | some true =>
    match pyContains "id" n0 with
    | none => none
    | some true => some (some "id")
    | some false => chooseKeyName n0 o0
  | some false => chooseKeyName n0 o0

/-- The `elif 'name' in old[0] and 'name' in new[0]` fallback. -/
def chooseKeyName (n0 o0 : Value) : Option (Option String) :=
  match pyContains "name" o0 with
  | none => none
  | some true =>
    match pyContains "name" n0 with
    | none => none
    | some true => some (some "name")
    | some false => some none
  | some false => some none

end

/-- CPython `sorted(l)`: applies no key function and compares elements
with `<`.  Raises `TypeError` (`none`) when the elements are not pairwise
orderable; otherwise returns the unique stable order. -/
def pySorted (l : List Value) : Option (List Value) :=
  if pairwiseB comp2 l then some (sSort ltB l) else none

/-- CPython `sorted(l, key=lambda x: x.get(k, None))`: the key function is
applied to every element first (raising `AttributeError` on a non-dict,
`none`), then the keys are compared with `<` (raising `TypeError` when not
pairwise orderable). -/
def pySortedByKey (k : Option String) (l : List Value) : Option (List Value) :=
  if l.all (fun x => (getKey k x).isSome) && pairwiseB comp2 (l.map (kfun k)) then
    some (sSort (fun x y => ltB (kfun k x) (kfun k y)) l)
  else none

/-- The dict branch of `default_compare`: for every key of the desired
dict, recursively compare its value against `old.get(k, None)`,
short-circuiting on the first mismatch or exception. -/
def dictStep (cmp : Value → Value → Option Bool) (od : Dict) : Dict → Option Bool
  | [] => some true
  | (k, v) :: rest =>
    match cmp v ((lookupD od k).getD vnone) with
    | none => none
    | some false => some false
    | some true => dictStep cmp od rest

/-- Pairwise recursive comparison of the two sorted sequences,
short-circuiting on the first mismatch or exception. -/
def pairsStep (cmp : Value → Value → Option Bool) : List (Value × Value) → Option Bool
  | [] => some true
  | (a, b) :: rest =>
    match cmp a b with
    | none => none
    | some false => some false
    | some true => pairsStep cmp rest

/-- The sort-selection-and-sort step of the list branch (lines 285-295):
peek at `old[0]` — an `IndexError` (`none`) when `old` is empty — then
either discover a sort key from the two first elements and key-sort both
sequences, or plainly sort both.  Only invoked on sequences of equal
length, so the `new` empty / `old` non-empty pattern is unreachable (it is
mapped to `none`). -/
def sortPair (nl ol : List Value) : Option (List Value × List Value) :=
  match nl, ol with
  | _, [] => none
  | [], _ :: _ => none
  | n0 :: _, o0 :: _ =>
    match o0 with
    | vdict _ =>
      match chooseKey n0 o0 with
      | none => none
      | some k =>
        match pySortedByKey k nl, pySortedByKey k ol with
        | some nl2, some ol2 => some (nl2, ol2)
        | _, _ => none
    | _ =>
      match pySorted nl, pySorted ol with
      | some nl2, some ol2 => some (nl2, ol2)
      | _, _ => none

/-- The list branch of `default_compare` (lines 282-299): length check,
then the sort step, then pairwise recursive comparison. -/
def listStep (cmp : Value → Value → Option Bool) (nl ol : List Value) : Option Bool :=
  if nl.length = ol.length then
    match sortPair nl ol with
    | none => none
    | some (nl2, ol2) => pairsStep cmp (nl2.zip ol2)
  else some false

/-- Fuelled `default_compare`.  The fuel only bounds the recursion depth;
`dcF_mono` below shows any fuel at least `vsize new` gives the same
result, so `default_compare` is fuel-independent. -/
def dcF : Nat → Value → Value → Option Bool
  | 0, _, _ => none
  | f + 1, new, old =>
    match new with
    | vnone => some true
    | vdict nd =>
      match old with
      | vdict od => dictStep (dcF f) od nd
      | _ => some false
    | vlist nl =>
      match old with
      | vlist ol => listStep (dcF f) nl ol
      | _ => some false
    | x => some (pyEq x old)

mutual

/-- Size measure of a value; recursion depth of `default_compare` on
`new` is bounded by it. -/
def vsize : Value → Nat
  | vnone => 1
  | vint _ => 1
  | vstr _ => 1
  | vlist l => vsizeL l + 1
  | vdict d => vsizeD d + 1

/-- Sum of sizes of list elements. -/
def vsizeL : List Value → Nat
  | [] => 0
  | a :: l => vsize a + vsizeL l

/-- Sum of sizes of dict values. -/
def vsizeD : Dict → Nat
  | [] => 0
  | (_, v) :: d => vsize v + vsizeD d

end

/-- `default_compare(new, old, path)` from the library modules (the same
30 lines are duplicated verbatim in each of the five files; the `path`
argument only feeds log strings and is dropped).  `some b` is a normal
return, `none` a raised exception (`IndexError` on the empty-sequence
peek, `TypeError`/`AttributeError` out of `sorted`). -/
def default_compare (new old : Value) : Option Bool :=
  dcF (vsize new) new old

/-!
## Reconciliation drivers

The per-module `exec_module` control loops.  The vendor SDK client is an
external collaborator; its behaviour is an oracle giving the outcome of
the i-th `get` call and of the (single) create-or-update / delete calls.
`CloudError` — the exception the generated Azure SDK raises for any
non-success HTTP response, 404 as well as 401/500 — is distinguished
below by its cause (`notFoundErr` vs `transientErr`) so that what the
driver does with each cause can be stated; `clientRaise` is any exception
outside the CloudError hierarchy (e.g. a transport error). -/

/-- Outcome of one `get` call on the resource client. -/
inductive GetOutcome where
  | found (d : Dict)
  | notFoundErr
  | transientErr
  | clientRaise

/-- Outcome of the create-or-update call on the resource client. -/
inductive CreateOutcome where
  | ok (d : Dict)
  | cloudErr
  | raise

/-- Outcome of the delete call on the resource client. -/
inductive DeleteOutcome where
  | ok
  | cloudErr
  | raise

/-- Behaviour of the external resource client during one invocation. -/
structure Oracle where
  get : Nat → GetOutcome
  create : CreateOutcome
  delete : DeleteOutcome

/-- Remote calls the driver can issue, in order.  `createCall` records the
payload passed to create-or-update; `sleepCall n` is `time.sleep(n)`. -/
inductive Call where
  | getCall
  | createCall (payload : Value)
  | deleteCall
  | sleepCall (n : Nat)

/-- Result of one module invocation: a normal return with its `changed`
flag, a failure reported through `self.fail`, or an uncaught Python
exception. -/
inductive Outcome where
  | ok (changed : Bool)
  | failed
  | raised
deriving DecidableEq

/-- The `state` module argument; the argument spec restricts it to
`present` (default) and `absent`. -/
inductive ModState where
  | present
  | absent
deriving DecidableEq

/-- The four values of the `Actions` enumeration. -/
inductive Actions where
  | noAction
  | create
  | update
  | delete
deriving DecidableEq

/-- Python truthiness of what the module-level get helpers return:
`False` (here `none`) and an empty dict are falsy, a non-empty dict
truthy. -/
def truthyOpt : Option Dict → Bool
  | none => false
  | some d => !d.isEmpty

/-- The module-level get helper shared by the template modules
(`get_firewallrule`, `get_user`, `get_environment`): returns the state
dict on success, `False` (`none`) when the client raises CloudError —
whatever its cause, 404 or auth/server fault — and lets any non-CloudError
exception propagate (`Except.error`). -/
def moduleGet : GetOutcome → Except Unit (Option Dict)
  | .found d => .ok (some d)
  | .notFoundErr => .ok none
  | .transientErr => .ok none
  | .clientRaise => .error ()

/-- The post-delete confirmation loop of the template
(`while self.get_xxx(): time.sleep(20)`).  `i` is the index of the next
`get` call; returns the calls made and whether the loop exited normally
(`false`: a non-CloudError exception propagated out of `get`); `none`:
the fuel ran out before the loop exited. -/
def deletePoll (g : Nat → GetOutcome) (i : Nat) : Nat → Option (List Call × Bool)
  | 0 => none
  | fuel + 1 =>
    match g i with
    | .clientRaise => some ([.getCall], false)
    | .notFoundErr => some ([.getCall], true)
    | .transientErr => some ([.getCall], true)
    | .found d =>
      if d.isEmpty then some ([.getCall], true)
      else
        match deletePoll g (i + 1) fuel with
        | none => none
        | some (calls, ok) => some (.getCall :: .sleepCall 20 :: calls, ok)

/-- The `exec_module` control flow shared verbatim by the
mariadbfirewallrule / devtestlabs modules, parameterized by the module's
decision step (`decide`, computing `self.to_do` from the lookup result;
`none` is an exception escaping the decision) and the desired-state
payload its create-or-update call sends.  Client/resource-group
bootstrapping is an out-of-scope collaborator and assumed to succeed.
Returns the invocation outcome with the trace of remote calls; `none`
when the delete-confirmation loop does not exit within `fuel`
iterations.

`execOnDecision` is the tail of the control flow, from the computed
`self.to_do` on: the check-mode early returns, the create-or-update /
delete calls with their CloudError-to-failure handling, and the
delete-confirmation loop. -/
def execOnDecision (payload : Value) (check_mode : Bool) (oc : Oracle) (fuel : Nat) :
    Option Actions → Option (Outcome × List Call)
  | none => some (.raised, [.getCall])
  | some .noAction => some (.ok false, [.getCall])
  | some .delete =>
    if check_mode then some (.ok true, [.getCall])
    else
      match oc.delete with
      | .raise => some (.raised, [.getCall, .deleteCall])
      | .cloudErr => some (.failed, [.getCall, .deleteCall])
      | .ok =>
        match deletePoll oc.get 1 fuel with
        | none => none
        | some (calls, clean) =>
          some (if clean then Outcome.ok true else Outcome.raised,
            .getCall :: .deleteCall :: calls)
  | some _ =>
    if check_mode then some (.ok true, [.getCall])
    else
      match oc.create with
      | .raise => some (.raised, [.getCall, .createCall payload])
      | .cloudErr => some (.failed, [.getCall, .createCall payload])
      | .ok _ => some (.ok true, [.getCall, .createCall payload])

def templateExec (decide : Option Dict → Option Actions) (payload : Value)
    (check_mode : Bool) (oc : Oracle) (fuel : Nat) : Option (Outcome × List Call) :=
  match moduleGet (oc.get 0) with
  | .error _ => some (.raised, [.getCall])
  | .ok old => execOnDecision payload check_mode oc fuel (decide old)

namespace Mariadb

/-- Module arguments of azure_rm_mariadbfirewallrule (the identity fields
resource_group / server_name / name only address the resource and are
omitted).  `check_mode` is Ansible dry-run. -/
structure FwArgs where
  start_ip_address : Value
  end_ip_address : Value
  state : ModState
  check_mode : Bool

/-- The desired-state dict built inline at line 169:
`{'start_ip_address': self.start_ip_address, 'end_ip_address': self.end_ip_address}`. -/
def desiredOf (a : FwArgs) : Value :=
  vdict [("start_ip_address", a.start_ip_address), ("end_ip_address", a.end_ip_address)]

/-- `get_firewallrule` (lines 243-263) — the shared template get. -/
def get_firewallrule : GetOutcome → Except Unit (Option Dict) := moduleGet

/-- The decision logic of `exec_module` (lines 156-170), computing
`self.to_do`.  `none` models an exception escaping from
`default_compare`. -/
def computeToDo (a : FwArgs) (old : Option Dict) : Option Actions :=
  if truthyOpt old = false then
    match a.state with
    | .absent => some .noAction
    | .present => some .create
  else
    match a.state with
    | .absent => some .delete
    | .present =>
      match default_compare (desiredOf a) (vdict (old.getD [])) with
      | none => none
      | some true => some .noAction
      | some false => some .update

/-- `exec_module` of azure_rm_mariadbfirewallrule (lines 142-202):
the shared template with this module's decision step; the
create-or-update call passes the two desired ip fields, i.e. exactly the
desired payload. -/
def exec_module (a : FwArgs) (oc : Oracle) (fuel : Nat) : Option (Outcome × List Call) :=
  templateExec (computeToDo a) (desiredOf a) a.check_mode oc fuel

end Mariadb

namespace DTLUser

/-- `exec_module` decision logic of azure_rm_devtestlabsuser
(lines 199-213).  The desired state accumulated from the kwargs lives in
`self.user`; the compare call at line 212 reads `self.parameters`, an
attribute defined neither in this class nor by the base class
(AzureRMModuleBase is repository code outside src/; modelled from the
spec, which gives the driver no such attribute), so reaching that line
raises AttributeError (`none`). -/
def computeToDo (state : ModState) (old : Option Dict) : Option Actions :=
  if truthyOpt old = false then
    match state with
    | .absent => some .noAction
    | .present => some .create
  else
    match state with
    | .absent => some .delete
    | .present => none

/-- `exec_module` of azure_rm_devtestlabsuser (lines 176-245), the same
template as the mariadb module: `user` is the desired-state dict
`self.user`, passed in full to `users.create_or_update`.  The
azure_rm_devtestlabsenvironment module is line-for-line the same control
flow (with `self.dtl_environment` for `self.user`, and the same undefined
`self.parameters` at its line 213). -/
def exec_module (user : Dict) (state : ModState) (check_mode : Bool)
    (oc : Oracle) (fuel : Nat) : Option (Outcome × List Call) :=
  templateExec (computeToDo state) (vdict user) check_mode oc fuel

end DTLUser

namespace Rediscache

/-- `exec_module` of azure_rm_rediscache: the module never runs.  The
file does not parse — `rediscache_to_dict` is missing the comma between
its `sku=dict(...)` and `enable_non_ssl_port=` arguments (lines 164-165),
a stray brace follows the SUBNET_ID_PATTERN string (line 177), and
`RedisUpdateParameters(...)` is missing a comma before its `Sku(...)`
argument (line 430) — so importing it raises SyntaxError.  Even reading
past those, both `__init__` (line 255, `super(AzureRMWebApps, self)`) and
`main` (line 524, `AzureRMWebApps()`) use the undefined name
`AzureRMWebApps` (the class is `AzureRMRedisCaches`), raising NameError
during construction, before `exec_module` (lines 259-353) is ever
entered.  Every invocation therefore raises during load or construction:
no reconciliation step runs and no remote call is issued. -/
def exec_module (_state : ModState) (_check_mode _hasSku : Bool) (_oc : Oracle) :
    Outcome × List Call :=
  (.raised, [])

end Rediscache

/-!
## Basic facts about the stable sort and the size measure
-/

theorem mem_sInsert {lt : α → α → Bool} {a x : α} {l : List α} :
    x ∈ sInsert lt a l ↔ x = a ∨ x ∈ l := by
  induction l with
  | nil => simp [sInsert]
  | cons b t ih =>
    simp only [sInsert]
    split
    · simp only [List.mem_cons, ih]
      tauto
    · simp [List.mem_cons]

theorem mem_sSort {lt : α → α → Bool} {x : α} {l : List α} :
    x ∈ sSort lt l ↔ x ∈ l := by
  induction l with
  | nil => simp [sSort]
  | cons a t ih => simp [sSort, mem_sInsert, ih]

theorem sInsert_perm (lt : α → α → Bool) (a : α) (l : List α) :
    (sInsert lt a l).Perm (a :: l) := by
  induction l with
  | nil => simp [sInsert]
  | cons b t ih =>
    by_cases h : lt b a = true
    · simpa [sInsert, h] using ((ih.cons b).trans (List.Perm.swap a b t))
    · simp [sInsert, h]

theorem sSort_perm (lt : α → α → Bool) (l : List α) : (sSort lt l).Perm l := by
  induction l with
  | nil => simp [sSort]
  | cons a t ih => exact (sInsert_perm lt a (sSort lt t)).trans (ih.cons a)

theorem vsize_pos (v : Value) : 1 ≤ vsize v := by
  cases v <;> simp only [vsize] <;> omega

theorem vsize_le_of_mem {x : Value} {l : List Value} (h : x ∈ l) :
    vsize x ≤ vsizeL l := by
  induction l with
  | nil => cases h
  | cons a t ih =>
    rcases List.mem_cons.mp h with rfl | h
    · simp only [vsizeL]
      omega
    · have := ih h
      simp only [vsizeL]
      omega

theorem vsize_le_of_memD {k : String} {v : Value} {d : Dict} (h : (k, v) ∈ d) :
    vsize v ≤ vsizeD d := by
  induction d with
  | nil => cases h
  | cons p t ih =>
    rcases List.mem_cons.mp h with rfl | h
    · simp only [vsizeD]
      omega
    · have := ih h
      cases p
      simp only [vsizeD]
      omega

/-- Elements of the result of `pySorted` come from the input list. -/
theorem mem_of_pySorted {l l2 : List Value} (h : pySorted l = some l2) {x : Value}
    (hx : x ∈ l2) : x ∈ l := by
  unfold pySorted at h
  split at h
  · cases h
    exact mem_sSort.mp hx
  · cases h

/-- Elements of the result of `pySortedByKey` come from the input list. -/
theorem mem_of_pySortedByKey {k : Option String} {l l2 : List Value}
    (h : pySortedByKey k l = some l2) {x : Value} (hx : x ∈ l2) : x ∈ l := by
  unfold pySortedByKey at h
  split at h
  · cases h
    exact mem_sSort.mp hx
  · cases h

/-!
## Fuel-independence of the comparator
-/

theorem dictStep_congr {cmp cmp2 : Value → Value → Option Bool} (od : Dict) {nd : Dict}
    (h : ∀ p ∈ nd, ∀ b, cmp p.2 b = cmp2 p.2 b) :
    dictStep cmp od nd = dictStep cmp2 od nd := by
  induction nd with
  | nil => rfl
  | cons p t ih =>
    cases p with
    | mk k v =>
      have hv := h (k, v) (List.mem_cons_self _ _) ((lookupD od k).getD vnone)
      simp only [dictStep, hv]
      have ht := ih (fun q hq b => h q (List.mem_cons_of_mem _ hq) b)
      split <;> simp [ht]

theorem pairsStep_congr {cmp cmp2 : Value → Value → Option Bool} {l : List (Value × Value)}
    (h : ∀ p ∈ l, cmp p.1 p.2 = cmp2 p.1 p.2) :
    pairsStep cmp l = pairsStep cmp2 l := by
  induction l with
  | nil => rfl
  | cons p t ih =>
    cases p with
    | mk a b =>
      have hp := h (a, b) (List.mem_cons_self _ _)
      simp only [pairsStep, hp]
      have ht := ih (fun q hq => h q (List.mem_cons_of_mem _ hq))
      split <;> simp [ht]

/-- Elements of the sorted desired sequence come from the input. -/
theorem mem_of_sortPair {nl ol nl2 ol2 : List Value}
    (h : sortPair nl ol = some (nl2, ol2)) : ∀ x ∈ nl2, x ∈ nl := by
  unfold sortPair at h
  split at h
  · cases h
  · cases h
  · rename_i n0 nt o0 ot
    split at h
    · split at h
      · cases h
      · split at h
        · rename_i hsn hso
          cases h
          exact fun x hx => mem_of_pySortedByKey hsn hx
        · cases h
    · split at h
      · rename_i hsn hso
        cases h
        exact fun x hx => mem_of_pySorted hsn hx
      · cases h

theorem listStep_congr {cmp cmp2 : Value → Value → Option Bool} {nl ol : List Value}
    (h : ∀ a ∈ nl, ∀ b, cmp a b = cmp2 a b) :
    listStep cmp nl ol = listStep cmp2 nl ol := by
  unfold listStep
  split
  · cases hsp : sortPair nl ol with
    | none => rfl
    | some p =>
      cases p with
      | mk nl2 ol2 =>
        refine pairsStep_congr (fun q hq => ?_)
        exact h q.1 (mem_of_sortPair hsp _ (List.of_mem_zip hq).1) q.2
  · rfl

/-- Any fuel at least `vsize new` computes the same comparator result. -/
theorem dcF_mono : ∀ (s : Nat), ∀ (new : Value), vsize new = s →
    ∀ (n : Nat), vsize new ≤ n → ∀ old, dcF n new old = dcF s new old := by
  intro s
  induction s using Nat.strong_induction_on with
  | _ s IH =>
    intro new hs n hn old
    have h1 : 1 ≤ vsize new := vsize_pos new
    obtain ⟨n', rfl⟩ : ∃ n', n = n' + 1 := by
      cases n
      · omega
      · exact ⟨_, rfl⟩
    obtain ⟨s', rfl⟩ : ∃ m, s = m + 1 := by
      cases s
      · omega
      · exact ⟨_, rfl⟩
    have key : ∀ (x : Value) (b : Value), vsize x < s' + 1 → vsize x ≤ n' → vsize x ≤ s' →
        dcF n' x b = dcF s' x b := by
      intro x b hxs hxn hxs'
      have e1 := IH (vsize x) (by omega) x rfl n' hxn b
      have e2 := IH (vsize x) (by omega) x rfl s' hxs' b
      rw [e1, e2]
    cases new with
    | vnone => rfl
    | vint i => rfl
    | vstr t => rfl
    | vdict nd =>
      simp only [dcF]
      cases old with
      | vdict od =>
        refine dictStep_congr od (fun p hp b => ?_)
        have hple : vsize p.2 ≤ vsizeD nd := by
          cases p
          exact vsize_le_of_memD hp
        have hsz : vsize (vdict nd) = vsizeD nd + 1 := rfl
        exact key p.2 b (by omega) (by omega) (by omega)
      | vnone => rfl
      | vint _ => rfl
      | vstr _ => rfl
      | vlist _ => rfl
    | vlist nl =>
      simp only [dcF]
      cases old with
      | vlist ol =>
        refine listStep_congr (fun a ha b => ?_)
        have hple : vsize a ≤ vsizeL nl := vsize_le_of_mem ha
        have hsz : vsize (vlist nl) = vsizeL nl + 1 := rfl
        exact key a b (by omega) (by omega) (by omega)
      | vnone => rfl
      | vint _ => rfl
      | vstr _ => rfl
      | vdict _ => rfl

/-- Unfolding equation: the comparator at any sufficient fuel is
`default_compare`. -/
theorem dcF_eq_default_compare {new : Value} {n : Nat} (h : vsize new ≤ n) (old : Value) :
    dcF n new old = default_compare new old :=
  dcF_mono (vsize new) new rfl n h old

/-!
## Unfolding equations of `default_compare`
-/

theorem dc_vnone (old : Value) : default_compare vnone old = some true := rfl

theorem dc_vint (i : Int) (old : Value) :
    default_compare (vint i) old = some (pyEq (vint i) old) := rfl

theorem dc_vstr (s : String) (old : Value) :
    default_compare (vstr s) old = some (pyEq (vstr s) old) := rfl

theorem dc_vdict (nd : Dict) (old : Value) :
    default_compare (vdict nd) old =
      match old with
      | vdict od => dictStep default_compare od nd
      | _ => some false := by
  show dcF (vsizeD nd + 1) (vdict nd) old = _
  cases old with
  | vdict od =>
    show dictStep (dcF (vsizeD nd)) od nd = dictStep default_compare od nd
    refine dictStep_congr od (fun p hp b => ?_)
    have : vsize p.2 ≤ vsizeD nd := by
      cases p
      exact vsize_le_of_memD hp
    exact dcF_eq_default_compare this b
  | vnone => rfl
  | vint _ => rfl
  | vstr _ => rfl
  | vlist _ => rfl

theorem dc_vlist (nl : List Value) (old : Value) :
    default_compare (vlist nl) old =
      match old with
      | vlist ol => listStep default_compare nl ol
      | _ => some false := by
  show dcF (vsizeL nl + 1) (vlist nl) old = _
  cases old with
  | vlist ol =>
    show listStep (dcF (vsizeL nl)) nl ol = listStep default_compare nl ol
    refine listStep_congr (fun a ha b => ?_)
    exact dcF_eq_default_compare (vsize_le_of_mem ha) b
  | vnone => rfl
  | vint _ => rfl
  | vstr _ => rfl
  | vdict _ => rfl

/-!
## Sequences of mappings keyed by integer ids
-/

/-- The element is a dict whose key `id` holds an int. -/
def idIntB (x : Value) : Bool :=
  match x with
  | vdict d =>
    match lookupD d "id" with
    | some (vint _) => true
    | _ => false
  | _ => false

/-- The integer id of an element (0 when there is none; only used under
`idIntB`). -/
def idInt (x : Value) : Int :=
  match x with
  | vdict d =>
    match lookupD d "id" with
    | some (vint i) => i
    | _ => 0
  | _ => 0

/-- Strict comparison of elements by their integer id. -/
def ltIdB (a b : Value) : Bool := decide (idInt a < idInt b)

/-- Propositional version of `ltIdB`, for sortedness statements. -/
def RltId (a b : Value) : Prop := idInt a < idInt b

instance : IsAntisymm Value RltId :=
  ⟨fun _ _ h h' => absurd (lt_trans h h') (lt_irrefl _)⟩

theorem idIntB_cases {x : Value} (h : idIntB x = true) :
    ∃ d i, x = vdict d ∧ lookupD d "id" = some (vint i) ∧ idInt x = i := by
  cases x with
  | vdict d =>
    simp only [idIntB] at h
    cases hl : lookupD d "id" with
    | none => simp [hl] at h
    | some v =>
      cases v with
      | vint i => exact ⟨d, i, rfl, hl, by simp [idInt, hl]⟩
      | vnone => simp [hl] at h
      | vstr _ => simp [hl] at h
      | vlist _ => simp [hl] at h
      | vdict _ => simp [hl] at h
  | vnone => cases h
  | vint _ => cases h
  | vstr _ => cases h
  | vlist _ => cases h

theorem pyContains_id_of_idIntB {x : Value} (h : idIntB x = true) :
    pyContains "id" x = some true := by
  obtain ⟨d, i, rfl, hl, _⟩ := idIntB_cases h
  simp [pyContains, hl]

theorem getKey_isSome_of_idIntB {x : Value} (h : idIntB x = true) :
    (getKey (some "id") x).isSome = true := by
  obtain ⟨d, i, rfl, hl, _⟩ := idIntB_cases h
  simp [getKey]

theorem kfun_of_idIntB {x : Value} (h : idIntB x = true) :
    kfun (some "id") x = vint (idInt x) := by
  obtain ⟨d, i, rfl, hl, hi⟩ := idIntB_cases h
  simp [kfun, getKey, hl, hi]

theorem comp2_vint (a b : Int) : comp2 (vint a) (vint b) = true := by
  simp [comp2, pyLt]

theorem pairwiseB_of_forall {p : α → α → Bool} {l : List α}
    (h : ∀ a ∈ l, ∀ b ∈ l, p a b = true) : pairwiseB p l = true := by
  induction l with
  | nil => rfl
  | cons a t ih =>
    simp only [pairwiseB, Bool.and_eq_true]
    constructor
    · exact List.all_eq_true.mpr fun b hb =>
        h a (List.mem_cons_self _ _) b (List.mem_cons_of_mem _ hb)
    · exact ih fun x hx y hy =>
        h x (List.mem_cons_of_mem _ hx) y (List.mem_cons_of_mem _ hy)

theorem sInsert_congr {lt1 lt2 : α → α → Bool} {a : α} {l : List α}
    (h : ∀ b ∈ l, lt1 b a = lt2 b a) : sInsert lt1 a l = sInsert lt2 a l := by
  induction l with
  | nil => rfl
  | cons b t ih =>
    simp only [sInsert, h b (List.mem_cons_self _ _)]
    split
    · rw [ih fun x hx => h x (List.mem_cons_of_mem _ hx)]
    · rfl

theorem sSort_congr {lt1 lt2 : α → α → Bool} {l : List α}
    (h : ∀ a ∈ l, ∀ b ∈ l, lt1 a b = lt2 a b) : sSort lt1 l = sSort lt2 l := by
  induction l with
  | nil => rfl
  | cons a t ih =>
    simp only [sSort]
    rw [ih fun x hx y hy =>
      h x (List.mem_cons_of_mem _ hx) y (List.mem_cons_of_mem _ hy)]
    refine sInsert_congr fun b hb => ?_
    have hbt : b ∈ t := mem_sSort.mp hb
    exact h b (List.mem_cons_of_mem _ hbt) a (List.mem_cons_self _ _)

theorem sInsert_sorted_id {a : Value} {l : List Value}
    (h : l.Pairwise (fun x y => idInt x ≤ idInt y)) :
    (sInsert ltIdB a l).Pairwise (fun x y => idInt x ≤ idInt y) := by
  induction l with
  | nil => simp [sInsert]
  | cons b t ih =>
    rw [List.pairwise_cons] at h
    obtain ⟨hb, ht⟩ := h
    simp only [sInsert]
    split
    · rename_i hlt
      rw [List.pairwise_cons]
      refine ⟨fun x hx => ?_, ih ht⟩
      rcases mem_sInsert.mp hx with rfl | hx
      · exact le_of_lt (by simpa [ltIdB] using hlt)
      · exact hb x hx
    · rename_i hnlt
      have hab : idInt a ≤ idInt b := by
        simp only [ltIdB, decide_eq_true_eq] at hnlt
        omega
      rw [List.pairwise_cons]
      refine ⟨fun x hx => ?_, List.pairwise_cons.mpr ⟨hb, ht⟩⟩
      rcases List.mem_cons.mp hx with rfl | hx
      · exact hab
      · exact le_trans hab (hb x hx)

theorem sSort_sorted_id (l : List Value) :
    (sSort ltIdB l).Pairwise (fun x y => idInt x ≤ idInt y) := by
  induction l with
  | nil => simp [sSort]
  | cons a t ih => exact sInsert_sorted_id ih

/-- With pairwise-distinct ids, the sorted order of a list is invariant
under permutation. -/
theorem sSort_eq_of_perm {l1 l2 : List Value} (hperm : l1.Perm l2)
    (hnd : (l1.map idInt).Nodup) : sSort ltIdB l1 = sSort ltIdB l2 := by
  have h1 : (sSort ltIdB l1).Perm l1 := sSort_perm _ _
  have h2 : (sSort ltIdB l2).Perm l2 := sSort_perm _ _
  have hp : (sSort ltIdB l1).Perm (sSort ltIdB l2) :=
    h1.trans (hperm.trans h2.symm)
  have hnd2 : (l2.map idInt).Nodup := ((hperm.map idInt).nodup_iff).mp hnd
  have strict : ∀ (l : List Value), (l.map idInt).Nodup →
      (sSort ltIdB l).Pairwise RltId := by
    intro l hl
    have hle := sSort_sorted_id l
    have hnds : ((sSort ltIdB l).map idInt).Nodup :=
      (((sSort_perm ltIdB l).map idInt).nodup_iff).mpr hl
    have hne : (sSort ltIdB l).Pairwise (fun x y => idInt x ≠ idInt y) :=
      (List.pairwise_map).mp hnds
    exact (hle.and hne).imp fun h => lt_of_le_of_ne h.1 h.2
  exact List.eq_of_perm_of_sorted hp (strict l1 hnd) (strict l2 hnd2)

/-- On sequences whose elements all carry integer ids, the key sort of
`default_compare` succeeds and sorts by the ids. -/
theorem pySortedByKey_id {l : List Value} (h : ∀ x ∈ l, idIntB x = true) :
    pySortedByKey (some "id") l = some (sSort ltIdB l) := by
  unfold pySortedByKey
  have g1 : l.all (fun x => (getKey (some "id") x).isSome) = true :=
    List.all_eq_true.mpr fun x hx => getKey_isSome_of_idIntB (h x hx)
  have g2 : pairwiseB comp2 (l.map (kfun (some "id"))) = true := by
    refine pairwiseB_of_forall fun a ha b hb => ?_
    obtain ⟨x, hx, rfl⟩ := List.mem_map.mp ha
    obtain ⟨y, hy, rfl⟩ := List.mem_map.mp hb
    rw [kfun_of_idIntB (h x hx), kfun_of_idIntB (h y hy)]
    exact comp2_vint _ _
  rw [g1, g2]
  simp only [Bool.and_self, if_true]
  refine congrArg some (sSort_congr fun a ha b hb => ?_)
  rw [kfun_of_idIntB (h a ha), kfun_of_idIntB (h b hb)]
  simp [ltB, pyLt, ltIdB]

/-!
## Reflexivity of the comparator on sortable, non-empty-sequence values
-/

theorem pyEqL_refl {l : List Value} (h : ∀ x ∈ l, pyEq x x = true) :
    pyEqL l l = true := by
  induction l with
  | nil => rfl
  | cons a t ih =>
    simp only [pyEqL, Bool.and_eq_true]
    exact ⟨h a (List.mem_cons_self _ _),
      ih fun x hx => h x (List.mem_cons_of_mem _ hx)⟩

theorem pyEqD_refl {d : Dict} (h : ∀ p ∈ d, pyEq p.2 p.2 = true) :
    pyEqD d d = true := by
  induction d with
  | nil => rfl
  | cons p t ih =>
    cases p with
    | mk k v =>
      simp only [pyEqD, Bool.and_eq_true]
      refine ⟨⟨by simp, h (k, v) (List.mem_cons_self _ _)⟩,
        ih fun q hq => h q (List.mem_cons_of_mem _ hq)⟩

theorem pyEq_refl_aux : ∀ (n : Nat) (v : Value), vsize v ≤ n → pyEq v v = true := by
  intro n
  induction n using Nat.strong_induction_on with
  | _ n IH =>
    intro v hv
    cases v with
    | vnone => rfl
    | vint i => simp [pyEq]
    | vstr s => simp [pyEq]
    | vlist l =>
      show pyEqL l l = true
      refine pyEqL_refl fun x hx => ?_
      have h1 : vsize x ≤ vsizeL l := vsize_le_of_mem hx
      have h2 : vsize (vlist l) = vsizeL l + 1 := rfl
      exact IH (vsize x) (by omega) x le_rfl
    | vdict d =>
      show pyEqD d d = true
      refine pyEqD_refl fun p hp => ?_
      have h1 : vsize p.2 ≤ vsizeD d := by
        cases p
        exact vsize_le_of_memD hp
      have h2 : vsize (vdict d) = vsizeD d + 1 := rfl
      exact IH (vsize p.2) (by omega) p.2 le_rfl

/-- Python `==` is reflexive. -/
theorem pyEq_refl (v : Value) : pyEq v v = true :=
  pyEq_refl_aux (vsize v) v le_rfl

/-- The keys of the dict are pairwise distinct (always true of a real
Python dict; the association-list model needs it stated). -/
def keysND : Dict → Bool
  | [] => true
  | (k, _) :: d => d.all (fun p => !(p.1 == k)) && keysND d

theorem lookupD_self {d : Dict} (hnd : keysND d = true) :
    ∀ {k : String} {v : Value}, (k, v) ∈ d → lookupD d k = some v := by
  induction d with
  | nil => intro k v h; cases h
  | cons p t ih =>
    cases p with
    | mk k0 v0 =>
      simp only [keysND, Bool.and_eq_true, List.all_eq_true] at hnd
      obtain ⟨hall, hnd'⟩ := hnd
      intro k v h
      rcases List.mem_cons.mp h with heq | hmem
      · cases heq
        simp [lookupD, List.find?]
      · have hne : (k0 == k) = false := by
          have h1 := hall (k, v) hmem
          simp only [Bool.not_eq_true'] at h1
          have : k ≠ k0 := by
            intro hkk
            rw [hkk] at h1
            simp at h1
          exact beq_eq_false_iff_ne.mpr (Ne.symm this)
        simp only [lookupD, List.find?]
        rw [show ((k0, v0).1 == k) = false from hne]
        exact ih hnd' hmem

mutual

/-- The values on which `default_compare` is reflexive: no dict has
duplicate keys (model hygiene), and every sequence is non-empty and
sortable without fault — its discovered sort keys, or the scalar elements
themselves, are pairwise orderable. -/
def ReflOKb : Value → Bool
  | vnone => true
  | vint _ => true
  | vstr _ => true
  | vdict d => keysND d && ReflOKbD d
  | vlist l =>
    (match l with
     | [] => false
     | a :: _ =>
       match a with
       | vdict _ =>
         (match chooseKey a a with
          | none => false
          | some k => (pySortedByKey k l).isSome)
       | _ => (pySorted l).isSome) && ReflOKbL l

/-- `ReflOKb` on every element of a list. -/
def ReflOKbL : List Value → Bool
  | [] => true
  | a :: t => ReflOKb a && ReflOKbL t

/-- `ReflOKb` on every value of a dict. -/
def ReflOKbD : Dict → Bool
  | [] => true
  | (_, v) :: t => ReflOKb v && ReflOKbD t

end

theorem ReflOKbL_mem {l : List Value} (h : ReflOKbL l = true) :
    ∀ x ∈ l, ReflOKb x = true := by
  induction l with
  | nil => intro x hx; cases hx
  | cons a t ih =>
    simp only [ReflOKbL, Bool.and_eq_true] at h
    intro x hx
    rcases List.mem_cons.mp hx with rfl | hx
    · exact h.1
    · exact ih h.2 x hx

theorem ReflOKbD_mem {d : Dict} (h : ReflOKbD d = true) :
    ∀ p ∈ d, ReflOKb p.2 = true := by
  induction d with
  | nil => intro p hp; cases hp
  | cons q t ih =>
    cases q with
    | mk k v =>
      simp only [ReflOKbD, Bool.and_eq_true] at h
      intro p hp
      rcases List.mem_cons.mp hp with rfl | hp
      · exact h.1
      · exact ih h.2 p hp

theorem dictStep_refl {d : Dict} (hnd : keysND d = true)
    (hc : ∀ p ∈ d, default_compare p.2 p.2 = some true) :
    ∀ rest : Dict, (∀ p ∈ rest, p ∈ d) → dictStep default_compare d rest = some true := by
  intro rest
  induction rest with
  | nil => intro _; rfl
  | cons p t ih =>
    intro hsub
    cases p with
    | mk k v =>
      have hmem := hsub (k, v) (List.mem_cons_self _ _)
      have hl : lookupD d k = some v := lookupD_self hnd hmem
      have hcv := hc (k, v) hmem
      simp only [dictStep, hl, Option.getD_some, hcv]
      exact ih fun q hq => hsub q (List.mem_cons_of_mem _ hq)

theorem pairsStep_refl {l2 : List Value}
    (h : ∀ x ∈ l2, default_compare x x = some true) :
    pairsStep default_compare (l2.zip l2) = some true := by
  induction l2 with
  | nil => rfl
  | cons a t ih =>
    simp only [List.zip_cons_cons, pairsStep, h a (List.mem_cons_self _ _)]
    exact ih fun x hx => h x (List.mem_cons_of_mem _ hx)

theorem compare_refl_aux : ∀ (n : Nat) (v : Value), vsize v ≤ n →
    ReflOKb v = true → default_compare v v = some true := by
  intro n
  induction n using Nat.strong_induction_on with
  | _ n IH =>
    intro v hv hok
    cases v with
    | vnone => exact dc_vnone _
    | vint i => rw [dc_vint, pyEq_refl]
    | vstr s => rw [dc_vstr, pyEq_refl]
    | vdict d =>
      rw [dc_vdict]
      simp only [ReflOKb, Bool.and_eq_true] at hok
      obtain ⟨hnd, hD⟩ := hok
      have hc : ∀ p ∈ d, default_compare p.2 p.2 = some true := by
        intro p hp
        have h1 : vsize p.2 ≤ vsizeD d := by
          cases p
          exact vsize_le_of_memD hp
        have h2 : vsize (vdict d) = vsizeD d + 1 := rfl
        exact IH (vsize p.2) (by omega) p.2 le_rfl (ReflOKbD_mem hD p hp)
      exact dictStep_refl hnd hc d (fun p hp => hp)
    | vlist l =>
      rw [dc_vlist]
      show listStep default_compare l l = some true
      unfold listStep
      rw [if_pos rfl]
      cases l with
      | nil => simp [ReflOKb] at hok
      | cons a t =>
        simp only [ReflOKb, Bool.and_eq_true] at hok
        obtain ⟨hsort, hL⟩ := hok
        have helem : ∀ x ∈ a :: t, default_compare x x = some true := by
          intro x hx
          have h1 : vsize x ≤ vsizeL (a :: t) := vsize_le_of_mem hx
          have h2 : vsize (vlist (a :: t)) = vsizeL (a :: t) + 1 := rfl
          exact IH (vsize x) (by omega) x le_rfl (ReflOKbL_mem hL x hx)
        cases a with
        | vdict ad =>
          cases hck : chooseKey (vdict ad) (vdict ad) with
          | none => rw [hck] at hsort; cases hsort
          | some k =>
            rw [hck] at hsort
            obtain ⟨l2, hl2⟩ := Option.isSome_iff_exists.mp hsort
            simp only [sortPair, hck, hl2]
            exact pairsStep_refl fun x hx => helem x (mem_of_pySortedByKey hl2 hx)
        | vnone =>
          obtain ⟨l2, hl2⟩ := Option.isSome_iff_exists.mp hsort
          simp only [sortPair, hl2]
          exact pairsStep_refl fun x hx => helem x (mem_of_pySorted hl2 hx)
        | vint i =>
          obtain ⟨l2, hl2⟩ := Option.isSome_iff_exists.mp hsort
          simp only [sortPair, hl2]
          exact pairsStep_refl fun x hx => helem x (mem_of_pySorted hl2 hx)
        | vstr s =>
          obtain ⟨l2, hl2⟩ := Option.isSome_iff_exists.mp hsort
          simp only [sortPair, hl2]
          exact pairsStep_refl fun x hx => helem x (mem_of_pySorted hl2 hx)
        | vlist il =>
          obtain ⟨l2, hl2⟩ := Option.isSome_iff_exists.mp hsort
          simp only [sortPair, hl2]
          exact pairsStep_refl fun x hx => helem x (mem_of_pySorted hl2 hx)

/-- The comparator is reflexive on every `ReflOKb` value. -/
theorem compare_refl {v : Value} (h : ReflOKb v = true) :
    default_compare v v = some true :=
  compare_refl_aux (vsize v) v le_rfl h

/-!
## Driver lemmas
-/

/-- Is the call a remote mutation (create-or-update or delete)? -/
def isMutateCall : Call → Bool
  | .deleteCall => true
  | .createCall _ => true
  | _ => false

/-- Is the call the delete operation? -/
def isDeleteCall : Call → Bool
  | .deleteCall => true
  | _ => false

/-- In check mode the template issues the single lookup and returns
without any further call. -/
theorem templateExec_check (dec : Option Dict → Option Actions) (payload : Value)
    (oc : Oracle) (fuel : Nat) :
    templateExec dec payload true oc fuel =
      match moduleGet (oc.get 0) with
      | .error _ => some (.raised, [.getCall])
      | .ok old =>
        match dec old with
        | none => some (.raised, [.getCall])
        | some .noAction => some (.ok false, [.getCall])
        | some _ => some (.ok true, [.getCall]) := by
  unfold templateExec
  cases moduleGet (oc.get 0) with
  | error e => rfl
  | ok old =>
    show execOnDecision payload true oc fuel (dec old) = _
    cases hdec : dec old with
    | none => simp [execOnDecision, hdec]
    | some td => cases td <;> simp [execOnDecision, hdec]

/-- Any completed run whose decision was Create, Update or Delete that
returns normally reports `changed = true`. -/
theorem templateExec_ok_changed {dec : Option Dict → Option Actions} {payload : Value}
    {cm : Bool} {oc : Oracle} {fuel : Nat} {c : Bool} {tr : List Call}
    (hex : templateExec dec payload cm oc fuel = some (Outcome.ok c, tr))
    {old : Option Dict} (hold : moduleGet (oc.get 0) = Except.ok old)
    {td : Actions} (htd : dec old = some td) (hne : td ≠ Actions.noAction) :
    c = true := by
  unfold templateExec at hex
  rw [hold] at hex
  have hex2 : execOnDecision payload cm oc fuel (some td) = some (Outcome.ok c, tr) := by
    rw [← htd]
    exact hex
  clear hex
  rename' hex2 => hex
  unfold execOnDecision at hex
  cases td with
  | noAction => exact absurd rfl hne
  | delete =>
    cases cm with
    | true =>
      simp only [if_true, Option.some.injEq, Prod.mk.injEq, Outcome.ok.injEq] at hex
      exact hex.1.symm
    | false =>
      simp only [Bool.false_eq_true, if_false] at hex
      cases hdel : oc.delete with
      | raise => rw [hdel] at hex; simp at hex
      | cloudErr => rw [hdel] at hex; simp at hex
      | ok =>
        rw [hdel] at hex
        cases hdp : deletePoll oc.get 1 fuel with
        | none => rw [hdp] at hex; simp at hex
        | some p =>
          cases p with
          | mk calls clean =>
            rw [hdp] at hex
            cases clean with
            | true =>
              simp only [if_true, Option.some.injEq, Prod.mk.injEq,
                Outcome.ok.injEq] at hex
              exact hex.1.symm
            | false =>
              simp only [Bool.false_eq_true, if_false] at hex
              simp at hex
  | create =>
    cases cm with
    | true =>
      simp only [if_true, Option.some.injEq, Prod.mk.injEq, Outcome.ok.injEq] at hex
      exact hex.1.symm
    | false =>
      simp only [Bool.false_eq_true, if_false] at hex
      cases hcr : oc.create with
      | raise => rw [hcr] at hex; simp at hex
      | cloudErr => rw [hcr] at hex; simp at hex
      | ok d =>
        rw [hcr] at hex
        simp only [Option.some.injEq, Prod.mk.injEq, Outcome.ok.injEq] at hex
        exact hex.1.symm
  | update =>
    cases cm with
    | true =>
      simp only [if_true, Option.some.injEq, Prod.mk.injEq, Outcome.ok.injEq] at hex
      exact hex.1.symm
    | false =>
      simp only [Bool.false_eq_true, if_false] at hex
      cases hcr : oc.create with
      | raise => rw [hcr] at hex; simp at hex
      | cloudErr => rw [hcr] at hex; simp at hex
      | ok d =>
        rw [hcr] at hex
        simp only [Option.some.injEq, Prod.mk.injEq, Outcome.ok.injEq] at hex
        exact hex.1.symm

/-- Trace of a confirmation loop that saw the resource still present `k`
times: `k` rounds of (get, sleep 20), then the final get that reported
not-found. -/
def pollTrace : Nat → List Call
  | 0 => [.getCall]
  | k + 1 => .getCall :: .sleepCall 20 :: pollTrace k

theorem pollTrace_no_mutate (k : Nat) : (pollTrace k).countP isMutateCall = 0 := by
  induction k with
  | zero => rfl
  | succ k ih => simp [pollTrace, List.countP_cons, isMutateCall, ih]

theorem pollTrace_no_delete (k : Nat) : (pollTrace k).countP isDeleteCall = 0 := by
  induction k with
  | zero => rfl
  | succ k ih => simp [pollTrace, List.countP_cons, isDeleteCall, ih]

/-- The confirmation loop against a well-behaved remote (every poll
either still sees a non-empty state or reports not-found): when it
terminates it exits cleanly, having slept 20 units between consecutive
polls, and only after a poll reported not-found. -/
theorem deletePoll_spec {g : Nat → GetOutcome} {i : Nat} {fuel : Nat} {calls : List Call}
    {clean : Bool}
    (hwb : ∀ j, i ≤ j → g j = GetOutcome.notFoundErr ∨ ∃ d, g j = GetOutcome.found d ∧ d ≠ [])
    (h : deletePoll g i fuel = some (calls, clean)) :
    clean = true ∧ ∃ k, calls = pollTrace k ∧ g (i + k) = GetOutcome.notFoundErr ∧
      ∀ j, j < k → ∃ d, g (i + j) = GetOutcome.found d ∧ d ≠ [] := by
  induction fuel generalizing i calls clean with
  | zero => cases h
  | succ f ih =>
    rcases hwb i le_rfl with hnf | ⟨d, hf, hne⟩
    · rw [deletePoll, hnf] at h
      cases h
      refine ⟨rfl, 0, rfl, by simpa using hnf, fun j hj => absurd hj (Nat.not_lt_zero j)⟩
    · rw [deletePoll, hf] at h
      have hde : d.isEmpty = false := by
        cases d with
        | nil => exact absurd rfl hne
        | cons p t => rfl
      simp only [hde, Bool.false_eq_true, if_false] at h
      cases hdp : deletePoll g (i + 1) f with
      | none => rw [hdp] at h; cases h
      | some p =>
        cases p with
        | mk calls2 clean2 =>
          rw [hdp] at h
          cases h
          obtain ⟨hc, k, hcalls, hnf, hprev⟩ := ih (fun j hj => hwb j (by omega)) hdp
          refine ⟨hc, k + 1, by rw [hcalls]; rfl, ?_, ?_⟩
          · rw [show i + (k + 1) = (i + 1) + k by omega]
            exact hnf
          · intro j hj
            cases j with
            | zero => exact ⟨d, by simpa using hf, hne⟩
            | succ j2 =>
              obtain ⟨d2, hd2, hne2⟩ := hprev j2 (by omega)
              exact ⟨d2, by rw [show i + (j2 + 1) = (i + 1) + j2 by omega]; exact hd2, hne2⟩

/-- Delete path of the template against a well-behaved remote: the
collaborator's delete is invoked exactly once, followed by the
confirmation polls with a fixed 20-unit sleep between consecutive polls,
returning changed=true only once a poll reported not-found. -/
theorem templateExec_delete_spec {dec : Option Dict → Option Actions} {payload : Value}
    {oc : Oracle} {fuel : Nat} {out : Outcome} {tr : List Call}
    (hex : templateExec dec payload false oc fuel = some (out, tr))
    {old : Option Dict} (hold : moduleGet (oc.get 0) = Except.ok old)
    (htd : dec old = some Actions.delete)
    (hdel : oc.delete = DeleteOutcome.ok)
    (hwb : ∀ j, 1 ≤ j → oc.get j = GetOutcome.notFoundErr ∨
      ∃ d, oc.get j = GetOutcome.found d ∧ d ≠ []) :
    out = Outcome.ok true ∧
    tr.countP isDeleteCall = 1 ∧
    ∃ k, tr = Call.getCall :: Call.deleteCall :: pollTrace k ∧
      oc.get (1 + k) = GetOutcome.notFoundErr ∧
      ∀ j, j < k → ∃ d, oc.get (1 + j) = GetOutcome.found d ∧ d ≠ [] := by
  unfold templateExec at hex
  rw [hold] at hex
  have hex2 : execOnDecision payload false oc fuel (some Actions.delete)
      = some (out, tr) := by
    rw [← htd]
    exact hex
  unfold execOnDecision at hex2
  rw [hdel] at hex2
  simp only [Bool.false_eq_true, if_false] at hex2
  cases hdp : deletePoll oc.get 1 fuel with
  | none => rw [hdp] at hex2; cases hex2
  | some p =>
    cases p with
    | mk calls clean =>
      rw [hdp] at hex2
      obtain ⟨hc, k, hcalls, hnf, hprev⟩ := deletePoll_spec hwb hdp
      subst hc
      simp only [if_true, Option.some.injEq, Prod.mk.injEq] at hex2
      obtain ⟨hout, htr⟩ := hex2
      subst hcalls
      refine ⟨hout.symm, ?_, k, htr.symm, hnf, hprev⟩
      rw [← htr]
      simp [List.countP_cons, isDeleteCall, pollTrace_no_delete k]

/-- On two non-empty sequences whose actual elements all carry integer
ids and whose desired head does too, the sort step discovers key `id` and
key-sorts both sequences. -/
theorem sortPair_id {nl ol : List Value} {n0 o0 : Value} {nt ot : List Value}
    (hn : nl = n0 :: nt) (ho : ol = o0 :: ot)
    (hidn0 : idIntB n0 = true) (hol : ∀ x ∈ ol, idIntB x = true) :
    sortPair nl ol =
      match pySortedByKey (some "id") nl with
      | none => none
      | some nl2 => some (nl2, sSort ltIdB ol) := by
  subst hn
  subst ho
  obtain ⟨o0d, i, ho0d, hlook, _⟩ := idIntB_cases (hol o0 (List.mem_cons_self _ _))
  subst ho0d
  have hck : chooseKey n0 (vdict o0d) = some (some "id") := by
    simp [chooseKey, pyContains_id_of_idIntB (hol (vdict o0d) (List.mem_cons_self _ _)),
      pyContains_id_of_idIntB hidn0]
  have hso : pySortedByKey (some "id") (vdict o0d :: ot)
      = some (sSort ltIdB (vdict o0d :: ot)) :=
    pySortedByKey_id hol
  simp only [sortPair]
  rw [hck]
  cases hsn : pySortedByKey (some "id") (n0 :: nt) with
  | none => simp [hsn, hso]
  | some nl2 => simp [hsn, hso]

/-!
## Claim theorems
-/

/-- C1: the spec requires `compare([], [])` to return true without
inspecting a first element of a zero-length sequence, and itself calls
the unguarded `old[0]` peek a latent defect of the template.  The code
confirms the defect: evaluating the embedded comparator at the failing
input shows the comparison raises (IndexError at `old[0]`, modelled as
`none`) instead of returning true. -/
theorem C1_empty_compare_raises : default_compare (vlist []) (vlist []) = none := rfl

/-- C7 counterexample: the claim asserts order-insensitivity for every
pair of equal-length sequences of mappings carrying a common `id` key.
With duplicate id values the stable sort preserves each list's original
order of the tied elements, so permuting the actual sequence changes the
result: the same desired sequence compares true against one ordering of
the actual elements and false against its permutation (a two-element
swap). -/
theorem C7_counterexample :
    default_compare
      (vlist [vdict [("id", vint 1), ("v", vstr "a")], vdict [("id", vint 1), ("v", vstr "b")]])
      (vlist [vdict [("id", vint 1), ("v", vstr "a")], vdict [("id", vint 1), ("v", vstr "b")]])
      = some true ∧
    default_compare
      (vlist [vdict [("id", vint 1), ("v", vstr "a")], vdict [("id", vint 1), ("v", vstr "b")]])
      (vlist [vdict [("id", vint 1), ("v", vstr "b")], vdict [("id", vint 1), ("v", vstr "a")]])
      = some false ∧
    List.Perm
      [vdict [("id", vint 1), ("v", vstr "b")], vdict [("id", vint 1), ("v", vstr "a")]]
      [vdict [("id", vint 1), ("v", vstr "a")], vdict [("id", vint 1), ("v", vstr "b")]] :=
  ⟨rfl, rfl, List.Perm.swap _ _ _⟩

/-- C7 (amended): for equal-length sequences whose elements are mappings
all carrying an integer `id` key with pairwise-distinct values, `compare`
returns the same result for any permutation of the actual sequence; in
particular the spec's example
`compare([{id:1,v:"a"},{id:2,v:"b"}], [{id:2,v:"b"},{id:1,v:"a"}])` is
true. -/
theorem C7_order_insensitive_distinct_ids :
    (∀ (nl ol ol2 : List Value), ol2.Perm ol →
      (∀ x ∈ nl, idIntB x = true) → (∀ x ∈ ol, idIntB x = true) →
      (ol.map idInt).Nodup →
      default_compare (vlist nl) (vlist ol2) = default_compare (vlist nl) (vlist ol)) ∧
    default_compare
      (vlist [vdict [("id", vint 1), ("v", vstr "a")], vdict [("id", vint 2), ("v", vstr "b")]])
      (vlist [vdict [("id", vint 2), ("v", vstr "b")], vdict [("id", vint 1), ("v", vstr "a")]])
      = some true := by
  constructor
  · intro nl ol ol2 hperm hnl hol hnd
    rw [dc_vlist, dc_vlist]
    show listStep default_compare nl ol2 = listStep default_compare nl ol
    have hol2 : ∀ x ∈ ol2, idIntB x = true := fun x hx => hol x (hperm.mem_iff.mp hx)
    have hlen2 : ol2.length = ol.length := hperm.length_eq
    unfold listStep
    by_cases hl : nl.length = ol.length
    · rw [if_pos hl, if_pos (by omega : nl.length = ol2.length)]
      cases ol with
      | nil =>
        have h2 : ol2 = [] := List.Perm.eq_nil hperm
        subst h2
        rfl
      | cons o0 ot =>
        cases ol2 with
        | nil => simp at hlen2
        | cons p0 pt =>
          cases nl with
          | nil => simp at hl
          | cons n0 nt =>
            have hidn0 : idIntB n0 = true := hnl n0 (List.mem_cons_self _ _)
            have hsorteq : sSort ltIdB (p0 :: pt) = sSort ltIdB (o0 :: ot) :=
              sSort_eq_of_perm hperm (((hperm.map idInt).nodup_iff).mpr hnd)
            rw [sortPair_id rfl rfl hidn0 hol2, sortPair_id rfl rfl hidn0 hol, hsorteq]
    · rw [if_neg hl, if_neg (by omega : ¬ nl.length = ol2.length)]
  · rfl

/-- C7 witness: the amended theorem applied to a concrete two-element
permutation with distinct integer ids. -/
theorem C7_witness :
    default_compare
      (vlist [vdict [("id", vint 1), ("v", vstr "a")], vdict [("id", vint 2), ("v", vstr "b")]])
      (vlist [vdict [("id", vint 2), ("v", vstr "b")], vdict [("id", vint 1), ("v", vstr "a")]])
    = default_compare
      (vlist [vdict [("id", vint 1), ("v", vstr "a")], vdict [("id", vint 2), ("v", vstr "b")]])
      (vlist [vdict [("id", vint 1), ("v", vstr "a")], vdict [("id", vint 2), ("v", vstr "b")]]) :=
  C7_order_insensitive_distinct_ids.1
    [vdict [("id", vint 1), ("v", vstr "a")], vdict [("id", vint 2), ("v", vstr "b")]]
    [vdict [("id", vint 1), ("v", vstr "a")], vdict [("id", vint 2), ("v", vstr "b")]]
    [vdict [("id", vint 2), ("v", vstr "b")], vdict [("id", vint 1), ("v", vstr "a")]]
    (List.Perm.swap _ _ _)
    (by intro x hx; fin_cases hx <;> rfl)
    (by intro x hx; fin_cases hx <;> rfl)
    (by simp [idInt, lookupD, List.find?])

/-- C8 counterexample: the claim asserts `compare(actual, actual) = true`
for every actual value, explicitly including sequences of scalars.  For
the two-element sequence `[None, None]` the comparator reaches
`sorted([None, None])`, which raises TypeError (None is unorderable), so
the comparison raises (`none`) instead of returning true. -/
theorem C8_counterexample :
    default_compare (vlist [vnone, vnone]) (vlist [vnone, vnone]) = none ∧
    (none : Option Bool) ≠ some true := ⟨rfl, by decide⟩

/-- C8 (amended): `compare(actual, actual) = true` for every actual value
whose mappings have duplicate-free keys and whose sequences are all
non-empty and sortable without fault (the discovered sort keys of a
sequence of mappings, or the scalar elements themselves, are pairwise
orderable); empty sequences, sequences of two or more keyless or
same-keyed mappings, None elements and mixed-type scalar sequences make
the comparator raise instead. -/
theorem C8_reflexive_on_sortable (v : Value) (h : ReflOKb v = true) :
    default_compare v v = some true :=
  compare_refl h

/-- C8 witness: reflexivity evaluated on a nested value with a mapping,
an int sequence, and a sequence of id-keyed mappings. -/
theorem C8_witness :
    ReflOKb (vdict [("a", vint 3), ("l", vlist [vint 2, vint 1]),
      ("d", vlist [vdict [("id", vint 2)], vdict [("id", vint 1)]]),
      ("s", vstr "hi"), ("n", vnone)]) = true ∧
    default_compare
      (vdict [("a", vint 3), ("l", vlist [vint 2, vint 1]),
        ("d", vlist [vdict [("id", vint 2)], vdict [("id", vint 1)]]),
        ("s", vstr "hi"), ("n", vnone)])
      (vdict [("a", vint 3), ("l", vlist [vint 2, vint 1]),
        ("d", vlist [vdict [("id", vint 2)], vdict [("id", vint 1)]]),
        ("s", vstr "hi"), ("n", vnone)]) = some true :=
  ⟨rfl, C8_reflexive_on_sortable _ rfl⟩

/-- Polling only touches `get` indices from `i` on, so the loop is
insensitive to what the first lookup returned. -/
theorem deletePoll_congr {g1 g2 : Nat → GetOutcome}
    (h : ∀ j, 1 ≤ j → g1 j = g2 j) :
    ∀ (fuel : Nat) (i : Nat), 1 ≤ i → deletePoll g1 i fuel = deletePoll g2 i fuel := by
  intro fuel
  induction fuel with
  | zero => intro i _; rfl
  | succ f ih =>
    intro i hi
    rw [deletePoll, deletePoll, h i hi]
    cases g2 i with
    | clientRaise => rfl
    | notFoundErr => rfl
    | transientErr => rfl
    | found d =>
      cases hde : d.isEmpty with
      | true => simp [hde]
      | false => simp [hde, ih (i + 1) (by omega)]

/-- The post-decision control flow only consults the create/delete
outcomes and the polls from index 1 on. -/
theorem execOnDecision_congr {payload : Value} {cm : Bool} {fuel : Nat}
    {oc1 oc2 : Oracle} (hg : ∀ j, 1 ≤ j → oc1.get j = oc2.get j)
    (hc : oc1.create = oc2.create) (hd : oc1.delete = oc2.delete)
    (td : Option Actions) :
    execOnDecision payload cm oc1 fuel td = execOnDecision payload cm oc2 fuel td := by
  cases td with
  | none => rfl
  | some a =>
    cases a with
    | noAction => rfl
    | delete =>
      unfold execOnDecision
      rw [hd, deletePoll_congr hg fuel 1 le_rfl]
    | create =>
      unfold execOnDecision
      rw [hc]
    | update =>
      unfold execOnDecision
      rw [hc]

/-- C9 counterexample: the claim says a get result that is an empty
mapping is treated by the decision logic as an existing resource; with
target `absent` that would mean decision Delete and `changed=true`.  The
code instead tests Python truthiness of the lookup result, so the empty
dict is conflated with the distinguished `False`: the module decides
NoAction and reports `changed=false`. -/
theorem C9_counterexample :
    Mariadb.exec_module ⟨vnone, vnone, ModState.absent, false⟩
      ⟨fun _ => GetOutcome.found [], CreateOutcome.ok [], DeleteOutcome.ok⟩ 1
      = some (Outcome.ok false, [Call.getCall]) := rfl

/-- C9 (amended): absence is represented by the distinguished value
`False`, but the decision logic tests truthiness of the lookup result, so
a present-but-empty actual state is conflated with absence: a run whose
first lookup returns the empty mapping is indistinguishable from one
whose first lookup reports not-found. -/
theorem C9_empty_dict_conflated_with_absence (a : Mariadb.FwArgs)
    (g : Nat → GetOutcome) (cr : CreateOutcome) (de : DeleteOutcome) (fuel : Nat) :
    Mariadb.exec_module a
      ⟨fun i => if i = 0 then GetOutcome.found [] else g i, cr, de⟩ fuel =
    Mariadb.exec_module a
      ⟨fun i => if i = 0 then GetOutcome.notFoundErr else g i, cr, de⟩ fuel := by
  show templateExec _ _ _ _ _ = templateExec _ _ _ _ _
  unfold templateExec
  show execOnDecision _ _ _ _ (Mariadb.computeToDo a (some []))
    = execOnDecision _ _ _ _ (Mariadb.computeToDo a none)
  have hdec : Mariadb.computeToDo a (some []) = Mariadb.computeToDo a none := rfl
  rw [hdec]
  apply execOnDecision_congr
  · intro j hj
    simp [show ¬(j = 0) by omega]
  · rfl
  · rfl

/-- C2 counterexample: the claim says every module, on target `absent`
with a non-existing resource, decides NoAction with `changed=false`,
succeeds and does not report a failure.  The rediscache module cannot:
its file does not parse (syntax errors at lines 164-165, 177 and 430)
and, reading past those, its constructor raises NameError at line 255
(`super(AzureRMWebApps, self)`), so on that very input — as on every
input — the invocation raises instead of succeeding with
`changed=false`. -/
theorem C2_counterexample :
    Rediscache.exec_module ModState.absent false true
      ⟨fun _ => GetOutcome.notFoundErr, CreateOutcome.ok [], DeleteOutcome.ok⟩
      = (Outcome.raised, []) ∧
    Outcome.raised ≠ Outcome.ok false := ⟨rfl, by decide⟩

/-- C2 (amended): on target `absent` with the lookup reporting not-found,
the mariadbfirewallrule and devtestlabs modules decide NoAction, report
`changed=false`, succeed and issue no further remote call; the rediscache
module never gets that far — its file has syntax errors and its
constructor references the undefined name `AzureRMWebApps`, so every
invocation raises during load/construction, before any reconciliation
step and without issuing any remote call. -/
theorem C2_absent_nonexisting :
    (∀ (a : Mariadb.FwArgs) (oc : Oracle) (fuel : Nat),
      a.state = ModState.absent → oc.get 0 = GetOutcome.notFoundErr →
      Mariadb.exec_module a oc fuel = some (Outcome.ok false, [Call.getCall])) ∧
    (∀ (u : Dict) (cm : Bool) (oc : Oracle) (fuel : Nat),
      oc.get 0 = GetOutcome.notFoundErr →
      DTLUser.exec_module u ModState.absent cm oc fuel
        = some (Outcome.ok false, [Call.getCall])) ∧
    (∀ (st : ModState) (cm hasSku : Bool) (oc : Oracle),
      Rediscache.exec_module st cm hasSku oc = (Outcome.raised, [])) := by
  refine ⟨fun a oc fuel hst hg => ?_, fun u cm oc fuel hg => ?_,
    fun st cm hasSku oc => rfl⟩
  · simp [Mariadb.exec_module, templateExec, hg, moduleGet, Mariadb.computeToDo,
      truthyOpt, hst, execOnDecision]
  · simp [DTLUser.exec_module, templateExec, hg, moduleGet, DTLUser.computeToDo,
      truthyOpt, execOnDecision]

/-- C2 witness: the amended theorem at a concrete invocation of the
mariadb module. -/
theorem C2_witness :
    Mariadb.exec_module ⟨vnone, vnone, ModState.absent, false⟩
      ⟨fun _ => GetOutcome.notFoundErr, CreateOutcome.ok [], DeleteOutcome.ok⟩ 1
      = some (Outcome.ok false, [Call.getCall]) :=
  C2_absent_nonexisting.1 _ _ _ rfl rfl

/-- C3 counterexample: the claim says every lookup fault other than
not-found — including a server-side fault — is surfaced to the caller as
a fatal failure rather than treated as absence.  A server-side/auth fault
is raised by the SDK as CloudError, which `get_firewallrule` catches
exactly like a 404: here a transient lookup fault with target `present`
in check mode is converted into the absence determination, the module
decides Create and returns success with `changed=true` — no failure is
reported. -/
theorem C3_counterexample :
    Mariadb.exec_module ⟨vnone, vnone, ModState.present, true⟩
      ⟨fun _ => GetOutcome.transientErr, CreateOutcome.ok [], DeleteOutcome.ok⟩ 1
      = some (Outcome.ok true, [Call.getCall]) := rfl

/-- C3 (amended): the driver converts every CloudError-class lookup fault
— not-found as well as auth/server-side faults, which it cannot tell
apart — into the "resource absent" determination; only exceptions outside
the CloudError hierarchy propagate, and they propagate as uncaught
exceptions terminating the run after the single lookup. -/
theorem C3_cloud_error_conflation :
    Mariadb.get_firewallrule GetOutcome.notFoundErr = Except.ok none ∧
    Mariadb.get_firewallrule GetOutcome.transientErr = Except.ok none ∧
    (∀ d : Dict, Mariadb.get_firewallrule (GetOutcome.found d) = Except.ok (some d)) ∧
    Mariadb.get_firewallrule GetOutcome.clientRaise = Except.error () ∧
    (∀ (a : Mariadb.FwArgs) (oc : Oracle) (fuel : Nat),
      oc.get 0 = GetOutcome.clientRaise →
      Mariadb.exec_module a oc fuel = some (Outcome.raised, [Call.getCall])) := by
  refine ⟨rfl, rfl, fun d => rfl, rfl, fun a oc fuel hg => ?_⟩
  simp [Mariadb.exec_module, templateExec, hg, moduleGet]

/-- C3 witness: a non-CloudError lookup exception propagates out of a
concrete invocation. -/
theorem C3_witness :
    Mariadb.exec_module ⟨vnone, vnone, ModState.present, false⟩
      ⟨fun _ => GetOutcome.clientRaise, CreateOutcome.ok [], DeleteOutcome.ok⟩ 1
      = some (Outcome.raised, [Call.getCall]) :=
  C3_cloud_error_conflation.2.2.2.2 _ _ _ rfl

/-- In check mode the template returns after the single lookup, with
`changed=true` whenever the computed decision is Create, Update or
Delete. -/
theorem templateExec_check_spec (dec : Option Dict → Option Actions) (payload : Value)
    (oc : Oracle) (fuel : Nat) :
    ∃ out : Outcome, templateExec dec payload true oc fuel = some (out, [Call.getCall]) ∧
      ∀ old : Option Dict, moduleGet (oc.get 0) = Except.ok old →
      ∀ td : Actions, dec old = some td → td ≠ Actions.noAction →
        out = Outcome.ok true := by
  rw [templateExec_check]
  cases hge : moduleGet (oc.get 0) with
  | error e =>
    refine ⟨Outcome.raised, rfl, fun old hold => ?_⟩
    cases hold
  | ok old0 =>
    cases hdec : dec old0 with
    | none =>
      refine ⟨Outcome.raised, by simp [hdec], fun old hold td htd hne => ?_⟩
      injection hold with h1
      subst h1
      rw [hdec] at htd
      cases htd
    | some td0 =>
      cases td0 with
      | noAction =>
        refine ⟨Outcome.ok false, by simp [hdec], fun old hold td htd hne => ?_⟩
        injection hold with h1
        subst h1
        rw [hdec] at htd
        injection htd with h2
        subst h2
        exact absurd rfl hne
      | create => exact ⟨Outcome.ok true, by simp [hdec], fun _ _ _ _ _ => rfl⟩
      | update => exact ⟨Outcome.ok true, by simp [hdec], fun _ _ _ _ _ => rfl⟩
      | delete => exact ⟨Outcome.ok true, by simp [hdec], fun _ _ _ _ _ => rfl⟩

/-- C4 (confirmed): with the dry-run flag set, the mariadbfirewallrule
and devtestlabsuser modules issue the single lookup and no
create-or-update or delete call, returning `changed=true` whenever the
decision is Create, Update or Delete; and any run (dry or not) that
returns normally with such a decision reports `changed=true`, so the
dry-run `changed` value matches the non-dry-run outcome. -/
theorem C4_dry_run_never_mutates :
    (∀ (a : Mariadb.FwArgs) (oc : Oracle) (fuel : Nat), a.check_mode = true →
      ∃ out : Outcome, Mariadb.exec_module a oc fuel = some (out, [Call.getCall]) ∧
        ∀ old : Option Dict, Mariadb.get_firewallrule (oc.get 0) = Except.ok old →
        ∀ td : Actions, Mariadb.computeToDo a old = some td → td ≠ Actions.noAction →
          out = Outcome.ok true) ∧
    (∀ (a : Mariadb.FwArgs) (oc : Oracle) (fuel : Nat) (c : Bool) (tr : List Call),
      Mariadb.exec_module a oc fuel = some (Outcome.ok c, tr) →
      ∀ old : Option Dict, Mariadb.get_firewallrule (oc.get 0) = Except.ok old →
      ∀ td : Actions, Mariadb.computeToDo a old = some td → td ≠ Actions.noAction →
        c = true) ∧
    (∀ (u : Dict) (st : ModState) (oc : Oracle) (fuel : Nat),
      ∃ out : Outcome, DTLUser.exec_module u st true oc fuel = some (out, [Call.getCall]) ∧
        ∀ old : Option Dict, moduleGet (oc.get 0) = Except.ok old →
        ∀ td : Actions, DTLUser.computeToDo st old = some td → td ≠ Actions.noAction →
          out = Outcome.ok true) ∧
    (∀ (u : Dict) (st : ModState) (cm : Bool) (oc : Oracle) (fuel : Nat) (c : Bool)
        (tr : List Call),
      DTLUser.exec_module u st cm oc fuel = some (Outcome.ok c, tr) →
      ∀ old : Option Dict, moduleGet (oc.get 0) = Except.ok old →
      ∀ td : Actions, DTLUser.computeToDo st old = some td → td ≠ Actions.noAction →
        c = true) := by
  refine ⟨fun a oc fuel hcm => ?_, fun a oc fuel c tr hex old hold td htd hne => ?_,
    fun u st oc fuel => ?_, fun u st cm oc fuel c tr hex old hold td htd hne => ?_⟩
  · have h := templateExec_check_spec (Mariadb.computeToDo a) (Mariadb.desiredOf a) oc fuel
    rw [show Mariadb.exec_module a oc fuel
      = templateExec (Mariadb.computeToDo a) (Mariadb.desiredOf a) a.check_mode oc fuel
      from rfl, hcm]
    exact h
  · exact templateExec_ok_changed hex hold htd hne
  · exact templateExec_check_spec (DTLUser.computeToDo st) (vdict u) oc fuel
  · exact templateExec_ok_changed hex hold htd hne

/-- C4 witness: the confirmed theorem at a concrete dry-run invocation
(target present, resource absent, hence decision Create). -/
theorem C4_witness :
    ∃ out : Outcome, Mariadb.exec_module ⟨vnone, vnone, ModState.present, true⟩
      ⟨fun _ => GetOutcome.notFoundErr, CreateOutcome.ok [], DeleteOutcome.ok⟩ 1
      = some (out, [Call.getCall]) ∧
      ∀ old : Option Dict,
        Mariadb.get_firewallrule
          ((⟨fun _ => GetOutcome.notFoundErr, CreateOutcome.ok [], DeleteOutcome.ok⟩ :
            Oracle).get 0) = Except.ok old →
      ∀ td : Actions,
        Mariadb.computeToDo ⟨vnone, vnone, ModState.present, true⟩ old = some td →
        td ≠ Actions.noAction → out = Outcome.ok true :=
  C4_dry_run_never_mutates.1 _ _ 1 rfl

/-- C5 counterexample: the claim says each module (the rediscache module
is cited), on target `absent` with the resource existing and no dry-run,
invokes delete exactly once and then polls get with 20-unit sleeps until
not-found.  The rediscache module never does any of this: its file does
not parse (syntax errors at lines 164-165, 177 and 430) and, reading past
those, its constructor raises NameError at line 255
(`super(AzureRMWebApps, self)`) before `exec_module` is reached, so the
invocation raises with no delete call, no poll and no sleep.  (Its
`delete_rediscache`, were it reachable, contains no poll loop either.) -/
theorem C5_counterexample :
    Rediscache.exec_module ModState.absent false true
      ⟨fun _ => GetOutcome.found [("id", vstr "c")], CreateOutcome.ok [], DeleteOutcome.ok⟩
      = (Outcome.raised, []) ∧
    ([] : List Call).countP isDeleteCall = 0 := ⟨rfl, rfl⟩

/-- C5 (amended): in the mariadbfirewallrule and devtestlabs modules, a
Delete decision against a well-behaved remote invokes the collaborator's
delete exactly once and then polls get, sleeping a fixed 20 time units
between consecutive polls, not returning until a poll reports not-found
(proved for the mariadb module and for the devtestlabsuser instance of
the shared template); every invocation of the rediscache module instead
raises during load/construction — syntax errors and an undefined
`AzureRMWebApps` name in its constructor — issuing no delete and no
poll. -/
theorem C5_delete_then_poll :
    (∀ (a : Mariadb.FwArgs) (oc : Oracle) (fuel : Nat) (out : Outcome) (tr : List Call),
      a.state = ModState.absent → a.check_mode = false →
      oc.delete = DeleteOutcome.ok →
      (∀ j, 1 ≤ j → oc.get j = GetOutcome.notFoundErr ∨
        ∃ d, oc.get j = GetOutcome.found d ∧ d ≠ []) →
      ∀ old : Option Dict, Mariadb.get_firewallrule (oc.get 0) = Except.ok old →
      truthyOpt old = true →
      Mariadb.exec_module a oc fuel = some (out, tr) →
      out = Outcome.ok true ∧ tr.countP isDeleteCall = 1 ∧
      ∃ k, tr = Call.getCall :: Call.deleteCall :: pollTrace k ∧
        oc.get (1 + k) = GetOutcome.notFoundErr ∧
        ∀ j, j < k → ∃ d, oc.get (1 + j) = GetOutcome.found d ∧ d ≠ []) ∧
    (∀ (u : Dict) (oc : Oracle) (fuel : Nat) (out : Outcome) (tr : List Call),
      oc.delete = DeleteOutcome.ok →
      (∀ j, 1 ≤ j → oc.get j = GetOutcome.notFoundErr ∨
        ∃ d, oc.get j = GetOutcome.found d ∧ d ≠ []) →
      ∀ old : Option Dict, moduleGet (oc.get 0) = Except.ok old →
      truthyOpt old = true →
      DTLUser.exec_module u ModState.absent false oc fuel = some (out, tr) →
      out = Outcome.ok true ∧ tr.countP isDeleteCall = 1 ∧
      ∃ k, tr = Call.getCall :: Call.deleteCall :: pollTrace k ∧
        oc.get (1 + k) = GetOutcome.notFoundErr ∧
        ∀ j, j < k → ∃ d, oc.get (1 + j) = GetOutcome.found d ∧ d ≠ []) ∧
    (∀ (st : ModState) (cm hasSku : Bool) (oc : Oracle),
      Rediscache.exec_module st cm hasSku oc = (Outcome.raised, [])) := by
  refine ⟨?_, ?_, fun st cm hasSku oc => rfl⟩
  · intro a oc fuel out tr hst hcm hdel hwb old hold htruthy hex
    have htd : Mariadb.computeToDo a old = some Actions.delete := by
      unfold Mariadb.computeToDo
      rw [htruthy]
      simp [hst]
    have hex2 : templateExec (Mariadb.computeToDo a) (Mariadb.desiredOf a) false oc fuel
        = some (out, tr) := by
      rw [← hcm]
      exact hex
    exact templateExec_delete_spec hex2 hold htd hdel hwb
  · intro u oc fuel out tr hdel hwb old hold htruthy hex
    have htd : DTLUser.computeToDo ModState.absent old = some Actions.delete := by
      unfold DTLUser.computeToDo
      rw [htruthy]
      simp
    exact templateExec_delete_spec hex hold htd hdel hwb

/-- C5 witness: the amended theorem run against a remote that reports the
resource still present on the first confirmation poll and deleted on the
second. -/
theorem C5_witness :
    Outcome.ok true = Outcome.ok true ∧
    (Call.getCall :: Call.deleteCall :: pollTrace 1).countP isDeleteCall = 1 ∧
    ∃ k, Call.getCall :: Call.deleteCall :: pollTrace 1
        = Call.getCall :: Call.deleteCall :: pollTrace k ∧
      (fun i => if i = 0 then GetOutcome.found [("id", vstr "r")]
        else if i = 1 then GetOutcome.found [("id", vstr "r")]
        else GetOutcome.notFoundErr) (1 + k) = GetOutcome.notFoundErr ∧
      ∀ j, j < k → ∃ d,
        (fun i => if i = 0 then GetOutcome.found [("id", vstr "r")]
          else if i = 1 then GetOutcome.found [("id", vstr "r")]
          else GetOutcome.notFoundErr) (1 + j) = GetOutcome.found d ∧ d ≠ [] :=
  C5_delete_then_poll.1 ⟨vnone, vnone, ModState.absent, false⟩
    ⟨fun i => if i = 0 then GetOutcome.found [("id", vstr "r")]
      else if i = 1 then GetOutcome.found [("id", vstr "r")]
      else GetOutcome.notFoundErr, CreateOutcome.ok [], DeleteOutcome.ok⟩
    5 (Outcome.ok true) (Call.getCall :: Call.deleteCall :: pollTrace 1)
    rfl rfl rfl
    (fun j hj => by
      by_cases h1 : j = 1
      · subst h1
        exact Or.inr ⟨[("id", vstr "r")], rfl, by simp⟩
      · exact Or.inl (by simp [show ¬(j = 0) by omega, h1]))
    (some [("id", vstr "r")]) rfl rfl rfl

/-- C6: the claim (spec scenario 4) says every module, on target
`present` with the resource existing and a desired field differing,
decides Update with `changed=true` and sends the full desired payload to
create-or-update.  The mariadbfirewallrule module does exactly that
(second conjunct).  The devtestlabs modules cannot: their compare call
reads `self.parameters`, which is never defined (the desired state lives
in `self.user` / `self.dtl_environment`), so the invocation raises
AttributeError before any decision — the first conjunct evaluates the
embedded devtestlabsuser module at such a failing input. -/
theorem C6_update_scenario :
    DTLUser.exec_module [("location", vstr "w")] ModState.present false
      ⟨fun _ => GetOutcome.found [("id", vstr "x")], CreateOutcome.ok [], DeleteOutcome.ok⟩ 1
      = some (Outcome.raised, [Call.getCall]) ∧
    Mariadb.exec_module ⟨vstr "1.2.3.4", vstr "5.6.7.8", ModState.present, false⟩
      ⟨fun _ => GetOutcome.found [("id", vstr "r"), ("start_ip_address", vstr "0.0.0.0"),
        ("end_ip_address", vstr "5.6.7.8")], CreateOutcome.ok [("id", vstr "r")],
        DeleteOutcome.ok⟩ 1
      = some (Outcome.ok true,
          [Call.getCall, Call.createCall (vdict [("start_ip_address", vstr "1.2.3.4"),
            ("end_ip_address", vstr "5.6.7.8")])]) := ⟨rfl, rfl⟩

/-- C10 (confirmed): on a pair of sequences with mapping first elements,
the comparator's sort-key discovery inspects only the two first elements
— `id` is chosen exactly when present in both, else `name` when present
in both, else no key — and the entire sequences are then sorted with the
key function `x.get(key, None)`, which assigns `None` to any element
lacking the key; presence of the key in later elements is never
consulted (the sort step depends on them only through the sort itself). -/
theorem C10_key_discovery_first_elements_only :
    (∀ (n0d o0d : Dict) (ns os : List Value), ns.length = os.length →
      default_compare (vlist (vdict n0d :: ns)) (vlist (vdict o0d :: os)) =
        match chooseKey (vdict n0d) (vdict o0d) with
        | none => none
        | some k =>
          match pySortedByKey k (vdict n0d :: ns), pySortedByKey k (vdict o0d :: os) with
          | some nl2, some ol2 => pairsStep default_compare (nl2.zip ol2)
          | _, _ => none) ∧
    (∀ (n0d o0d : Dict),
      (chooseKey (vdict n0d) (vdict o0d) = some (some "id") ↔
        (lookupD o0d "id").isSome = true ∧ (lookupD n0d "id").isSome = true) ∧
      (chooseKey (vdict n0d) (vdict o0d) = some (some "name") ↔
        ¬((lookupD o0d "id").isSome = true ∧ (lookupD n0d "id").isSome = true) ∧
        (lookupD o0d "name").isSome = true ∧ (lookupD n0d "name").isSome = true) ∧
      (chooseKey (vdict n0d) (vdict o0d) = some none ↔
        ¬((lookupD o0d "id").isSome = true ∧ (lookupD n0d "id").isSome = true) ∧
        ¬((lookupD o0d "name").isSome = true ∧ (lookupD n0d "name").isSome = true))) ∧
    (∀ (k : String) (d : Dict),
      getKey (some k) (vdict d) = some ((lookupD d k).getD vnone)) := by
  refine ⟨fun n0d o0d ns os hlen => ?_, fun n0d o0d => ?_, fun k d => rfl⟩
  · rw [dc_vlist]
    show listStep default_compare (vdict n0d :: ns) (vdict o0d :: os) = _
    unfold listStep
    rw [if_pos (by simp [hlen])]
    simp only [sortPair]
    cases hck : chooseKey (vdict n0d) (vdict o0d) with
    | none => simp [hck]
    | some k =>
      cases hsn : pySortedByKey k (vdict n0d :: ns) with
      | none => simp [hck, hsn]
      | some nl2 =>
        cases hso : pySortedByKey k (vdict o0d :: os) with
        | none => simp [hck, hsn, hso]
        | some ol2 => simp [hck, hsn, hso]
  · cases h1 : (lookupD o0d "id").isSome with
    | true =>
      cases h2 : (lookupD n0d "id").isSome with
      | true =>
        refine ⟨by simp [chooseKey, pyContains, h1, h2], ?_, ?_⟩ <;>
          simp [chooseKey, pyContains, h1, h2]
      | false =>
        cases h3 : (lookupD o0d "name").isSome with
        | true =>
          cases h4 : (lookupD n0d "name").isSome with
          | true =>
            refine ⟨?_, ?_, ?_⟩ <;>
              simp [chooseKey, chooseKeyName, pyContains, h1, h2, h3, h4]
          | false =>
            refine ⟨?_, ?_, ?_⟩ <;>
              simp [chooseKey, chooseKeyName, pyContains, h1, h2, h3, h4]
        | false =>
          refine ⟨?_, ?_, ?_⟩ <;>
            simp [chooseKey, chooseKeyName, pyContains, h1, h2, h3]
    | false =>
      cases h3 : (lookupD o0d "name").isSome with
      | true =>
        cases h4 : (lookupD n0d "name").isSome with
        | true =>
          refine ⟨?_, ?_, ?_⟩ <;>
            simp [chooseKey, chooseKeyName, pyContains, h1, h3, h4]
        | false =>
          refine ⟨?_, ?_, ?_⟩ <;>
            simp [chooseKey, chooseKeyName, pyContains, h1, h3, h4]
      | false =>
        refine ⟨?_, ?_, ?_⟩ <;>
          simp [chooseKey, chooseKeyName, pyContains, h1, h3]

/-- C10 witness: the first conjunct applied to concrete one-element
sequences whose mappings both carry `id`. -/
theorem C10_witness :
    default_compare (vlist [vdict [("id", vint 1)]]) (vlist [vdict [("id", vint 2)]]) =
      match chooseKey (vdict [("id", vint 1)]) (vdict [("id", vint 2)]) with
      | none => none
      | some k =>
        match pySortedByKey k [vdict [("id", vint 1)]],
            pySortedByKey k [vdict [("id", vint 2)]] with
        | some nl2, some ol2 => pairsStep default_compare (nl2.zip ol2)
        | _, _ => none :=
  C10_key_discovery_first_elements_only.1 [("id", vint 1)] [("id", vint 2)] [] [] rfl
